import Mathlib

/-!
Verification of the `config` library's Value model and YAML pipeline.

Shallow embedding of the core of the `config` C++ repository:

* the polymorphic `Value` model (`src/Value.hpp`, `src/ValueJson.cpp`):
  type discriminants, numeric coercions (`AsInt`, `AsUInt`, `AsInt64`,
  `AsUInt64`, `AsBool`), the convertibility predicate `IsConvertibleTo`,
  element access `Elt`, and object merging (`Value::Merge`,
  `ObjectValue::Merge`);
* the object payload with its modification counter
  (`ObjectValue::UpdateMember` / `SetMember` / `RemoveMember`), together
  with a small heap model capturing the deep-copy-on-copy semantics of
  object-typed Values;
* the YAML event binder (`src/ValueYaml.cpp`): plain-scalar
  classification (`YamlReader::ParseScalar`) and `<<` merge-key handling
  (`YamlReader::ParseMapping`);
* the libyaml scanner's block-scalar scanner
  (`yaml_parser_scan_block_scalar`) and the parser's directive processing
  (`yaml_parser_process_directives`).

Modelling conventions:

* machine integers are carried as `Int` with explicit range checks where
  the C code performs them; C implicit conversions that matter (such as
  the narrowing cast `(unsigned) INT64_MAX`) are translated to their
  arithmetic effect;
* the `double` payload is modelled as an exact rational together with the
  IEEE-754 specials (`+inf`, `-inf`, `nan`).  Where the C code compares a
  double against an integer constant, the constant is the exact value of
  the C conversion of that constant to `double` (all the 32-bit bounds
  and `INT64_MIN` convert exactly; `double(INT64_MAX)` rounds up to
  `2^63` and `double(UINT64_MAX)` rounds up to `2^64`);
* conversions whose C semantics is undefined (an out-of-range
  float-to-integer cast, an out-of-bounds array read) yield `none`;
* object payloads are association lists; the sorted `vector_map` order of
  the C implementation is abstracted away because every property proved
  here observes objects only through key lookup.
-/

set_option autoImplicit false

namespace ConfigSpec

/-! ## Value type discriminants (`enum ValueType`, Value.hpp) -/

inductive VType where
  | null | bool | int | uint | int64 | uint64 | double | string | array | object
  deriving DecidableEq, Repr

/-- IEEE-754 double payload: an exact finite rational or a special. -/
inductive DoubleV where
  | finite (q : ℚ)
  | posInf
  | negInf
  | nan
  deriving DecidableEq, Repr

/-- The `Value` variant (`class Value`, Value.hpp).  Integer payloads are
`Int`s; well-formedness (`Val.WF`) records the machine ranges of the C
payload types.  Object members are an association list of key/value
pairs. -/
inductive Val where
  | null
  | bool (b : Bool)
  | int (n : Int)
  | uint (n : Int)
  | int64 (n : Int)
  | uint64 (n : Int)
  | double (d : DoubleV)
  | str (s : String)
  | arr (elts : List Val)
  | obj (members : List (String × Val))
  deriving Inhabited

/-- `Value::Type()`. -/
def Val.type : Val → VType
  | .null => .null
  | .bool _ => .bool
  | .int _ => .int
  | .uint _ => .uint
  | .int64 _ => .int64
  | .uint64 _ => .uint64
  | .double _ => .double
  | .str _ => .string
  | .arr _ => .array
  | .obj _ => .object

def Val.isNull (v : Val) : Bool := v.type = VType.null
def Val.isObject (v : Val) : Bool := v.type = VType.object
def Val.isArray (v : Val) : Bool := v.type = VType.array

/-! ## Machine integer bounds -/

def INT32_MIN : Int := -(2 ^ 31)
def INT32_MAX : Int := 2 ^ 31 - 1
def UINT32_MAX : Int := 2 ^ 32 - 1
def INT64_MIN : Int := -(2 ^ 63)
def INT64_MAX : Int := 2 ^ 63 - 1
def UINT64_MAX : Int := 2 ^ 64 - 1

mutual

/-- Payloads lie in the ranges of the C payload types (int32_t, uint32_t,
int64_t, uint64_t); recursively for containers. -/
def Val.wf : Val → Bool
  | .int n => INT32_MIN ≤ n ∧ n ≤ INT32_MAX
  | .uint n => 0 ≤ n ∧ n ≤ UINT32_MAX
  | .int64 n => INT64_MIN ≤ n ∧ n ≤ INT64_MAX
  | .uint64 n => 0 ≤ n ∧ n ≤ UINT64_MAX
  | .arr elts => Val.wfList elts
  | .obj members => Val.wfMembers members
  | _ => true

def Val.wfList : List Val → Bool
  | [] => true
  | v :: vs => Val.wf v && Val.wfList vs

def Val.wfMembers : List (String × Val) → Bool
  | [] => true
  | (_, v) :: vs => Val.wf v && Val.wfMembers vs

end

/-- Truncation toward zero, the C `(integer) double` conversion applied to
an in-range value. -/
def ratTrunc (q : ℚ) : Int := if 0 ≤ q then ⌊q⌋ else ⌈q⌉

/-! ## `Value::IsConvertibleTo` (ValueJson.cpp:1738-1825)

Notes on the constants appearing in the source:
* `(unsigned) INT32_MAX` is `0x7fffffff`, i.e. `INT32_MAX` itself;
* `(unsigned) INT64_MAX` (line 1790, the `uint64 → int64` check) is a
  narrowing cast of `0x7fffffffffffffff` to 32-bit `unsigned`, which
  yields `0xffffffff = UINT32_MAX`, not `INT64_MAX`;
* in the double row, the bounds are the C doubles `double(INT32_MIN)`,
  `double(INT32_MAX)`, `double(UINT32_MAX)`, `double(INT64_MIN)` (all
  exact), `double(INT64_MAX) = 2^63` and `double(UINT64_MAX) = 2^64`
  (rounded up by the int-to-double conversion). -/

def dINT64_MAX : ℚ := 2 ^ 63
def dUINT64_MAX : ℚ := 2 ^ 64

def Val.isConvertibleTo : Val → VType → Bool
  | .null, _ => true
  | .bool _, other =>
      other = VType.bool || other = VType.int || other = VType.uint ||
      other = VType.int64 || other = VType.uint64 || other = VType.double
  | .int n, other =>
      other = VType.bool || other = VType.int ||
      (other = VType.uint && 0 ≤ n) || other = VType.int64 ||
      (other = VType.uint64 && 0 ≤ n) || other = VType.double
  | .uint n, other =>
      other = VType.bool || (other = VType.int && n ≤ INT32_MAX) ||
      other = VType.uint || other = VType.int64 ||
      other = VType.uint64 || other = VType.double
  | .int64 n, other =>
      other = VType.bool ||
      (other = VType.int && INT32_MIN ≤ n && n ≤ INT32_MAX) ||
      (other = VType.uint && 0 ≤ n && n ≤ UINT32_MAX) ||
      other = VType.int64 ||
      (other = VType.uint64 && 0 ≤ n) || other = VType.double
  | .uint64 n, other =>
      other = VType.bool ||
      (other = VType.int && n ≤ INT32_MAX) ||
      (other = VType.uint && n ≤ UINT32_MAX) ||
      -- source line 1790: `mValue.mUInt64 <= (unsigned) INT64_MAX`,
      -- where the cast narrows INT64_MAX to UINT32_MAX
      (other = VType.int64 && n ≤ UINT32_MAX) ||
      other = VType.uint64 || other = VType.double
  | .double d, other =>
      match d with
      | .finite q =>
          other = VType.bool ||
          (other = VType.int && (INT32_MIN : ℚ) ≤ q && q ≤ (INT32_MAX : ℚ)) ||
          (other = VType.uint && 0 ≤ q && q ≤ (UINT32_MAX : ℚ)) ||
          (other = VType.int64 && (INT64_MIN : ℚ) ≤ q && q ≤ dINT64_MAX) ||
          (other = VType.uint64 && 0 ≤ q && q ≤ dUINT64_MAX) ||
          other = VType.double
      | .posInf => other = VType.bool || other = VType.double
      | .negInf => other = VType.bool || other = VType.double
      | .nan =>
          -- every comparison against NaN is false, so only the
          -- unconditional rows survive
          other = VType.bool || other = VType.double
  | .str _, other => other = VType.bool || other = VType.string
  | .arr _, other => other = VType.bool || other = VType.array
  | .obj _, other => other = VType.bool || other = VType.object

/-! ## Lossy coercions (ValueJson.cpp:1869-2092)

Each `As*` takes the caller-supplied default and returns `none` exactly
where the C computation is undefined behaviour: a float-to-integer cast
whose truncated value does not fit the destination type (this happens only
for `AsInt64` at `double = 2^63`, for `AsUInt64` at `double = 2^64`, and
for NaN inputs). -/

/-- `Value::AsInt` (ValueJson.cpp:1869). -/
def Val.asInt (v : Val) (defaultValue : Int) : Option Int :=
  match v with
  | .bool b => some (if b then 1 else 0)
  | .int n => some n
  | .uint n => some (if n > INT32_MAX then INT32_MAX else n)
  | .int64 n =>
      some (if n > INT32_MAX then INT32_MAX else if n < INT32_MIN then INT32_MIN else n)
  | .uint64 n => some (if n > INT32_MAX then INT32_MAX else n)
  | .double d =>
      match d with
      | .finite q =>
          if q < (INT32_MIN : ℚ) then some INT32_MIN
          else if q > (INT32_MAX : ℚ) then some INT32_MAX
          else some (ratTrunc q)
      | .posInf => some INT32_MAX
      | .negInf => some INT32_MIN
      | .nan => none
  | _ => some defaultValue

/-- `Value::AsUInt` (ValueJson.cpp:1910). -/
def Val.asUInt (v : Val) (defaultValue : Int) : Option Int :=
  match v with
  | .bool b => some (if b then 1 else 0)
  | .int n => some (if n < 0 then 0 else n)
  | .uint n => some n
  | .int64 n =>
      some (if n > UINT32_MAX then UINT32_MAX else if n < 0 then 0 else n)
  | .uint64 n => some (if n > UINT32_MAX then UINT32_MAX else n)
  | .double d =>
      match d with
      | .finite q =>
          if q < 0 then some 0
          else if q > (UINT32_MAX : ℚ) then some UINT32_MAX
          else some (ratTrunc q)
      | .posInf => some UINT32_MAX
      | .negInf => some 0
      | .nan => none
  | _ => some defaultValue

/-- `Value::AsInt64` (ValueJson.cpp:1949).  The double row's upper bound
is `double(INT64_MAX) = 2^63`; a double equal to `2^63` therefore passes
both range checks and the `int64_t` cast overflows (undefined). -/
def Val.asInt64 (v : Val) (defaultValue : Int) : Option Int :=
  match v with
  | .bool b => some (if b then 1 else 0)
  | .int n => some n
  | .uint n => some n
  | .int64 n => some n
  | .uint64 n => some (if n > INT64_MAX then INT64_MAX else n)
  | .double d =>
      match d with
      | .finite q =>
          if q < (INT64_MIN : ℚ) then some INT64_MIN
          else if q > dINT64_MAX then some INT64_MAX
          else
            let t := ratTrunc q
            if INT64_MIN ≤ t ∧ t ≤ INT64_MAX then some t else none
      | .posInf => some INT64_MAX
      | .negInf => some INT64_MIN
      | .nan => none
  | _ => some defaultValue

/-- `Value::AsUInt64` (ValueJson.cpp:1981).  The double row's upper bound
is `double(UINT64_MAX) = 2^64`; a double equal to `2^64` passes the range
checks and the `uint64_t` cast is undefined. -/
def Val.asUInt64 (v : Val) (defaultValue : Int) : Option Int :=
  match v with
  | .bool b => some (if b then 1 else 0)
  | .int n => some (if n < 0 then 0 else n)
  | .uint n => some n
  | .int64 n => some (if n < 0 then 0 else n)
  | .uint64 n => some n
  | .double d =>
      match d with
      | .finite q =>
          if q < 0 then some 0
          else if q > dUINT64_MAX then some UINT64_MAX
          else
            let t := ratTrunc q
            if 0 ≤ t ∧ t ≤ UINT64_MAX then some t else none
      | .posInf => some UINT64_MAX
      | .negInf => some 0
      | .nan => none
  | _ => some defaultValue

/-- The mathematical value of a numeric payload (bools count 1/0), used to
state losslessness of a coercion. -/
def Val.numVal : Val → Int
  | .bool b => if b then 1 else 0
  | .int n => n
  | .uint n => n
  | .int64 n => n
  | .uint64 n => n
  | _ => 0

/-- The five integer kinds. -/
def VType.isIntegerKind : VType → Bool
  | .bool | .int | .uint | .int64 | .uint64 => true
  | _ => false

/-- The four non-bool integer kinds, as conversion targets. -/
def VType.isIntTarget : VType → Bool
  | .int | .uint | .int64 | .uint64 => true
  | _ => false

/-- Dispatch the four integer coercions by target kind. -/
def Val.asIntegerKind (v : Val) (k : VType) (defaultValue : Int) : Option Int :=
  match k with
  | .int => v.asInt defaultValue
  | .uint => v.asUInt defaultValue
  | .int64 => v.asInt64 defaultValue
  | .uint64 => v.asUInt64 defaultValue
  | _ => none

/-! ## Array access (`Value::Elt`, ValueJson.cpp:2096-2112; `ArrayValue`)

`Value::Elt(int) const` checks only the discriminant: for a non-array it
returns the shared sentinel `kNullValue`, but for an array it forwards the
index to `ArrayValue::operator[]`, which is `data[index]` with no bounds
check (Value.hpp:319).  An out-of-range read is undefined behaviour,
modelled as `none`. -/

def Val.elt (v : Val) (index : Int) : Option Val :=
  match v with
  | .arr elts => if 0 ≤ index then elts.get? index.toNat else none
  | _ => some .null

/-- `Value::NumElts` (Value.hpp:697). -/
def Val.numElts : Val → Int
  | .arr elts => elts.length
  | _ => 0

/-! ## Object member primitives (`ObjectValue`, ValueJson.cpp:2548-2643)

The C `MemberMap` is a `vector_map` keyed by `strcmp`, so keys are unique;
we model the member list as an association list and observe it through
`lookupMember`. -/

/-- `ObjectValue::Member` / `MemberPtr`: first entry with the given key. -/
def lookupMember (ms : List (String × Val)) (k : String) : Option Val :=
  match ms with
  | [] => none
  | (k', v) :: rest => if k' = k then some v else lookupMember rest k

/-- `ObjectValue::RemoveMember`: erase the entry with the given key. -/
def removeMember (ms : List (String × Val)) (k : String) : List (String × Val) :=
  match ms with
  | [] => []
  | (k', v) :: rest => if k' = k then rest else (k', v) :: removeMember rest k

/-- `ObjectValue::UpdateMember(key) = v`: replace the value under an
existing key, or insert the pair if the key is absent. -/
def setMemberList (ms : List (String × Val)) (k : String) (v : Val) :
    List (String × Val) :=
  match ms with
  | [] => [(k, v)]
  | (k', w) :: rest =>
      if k' = k then (k', v) :: rest else (k', w) :: setMemberList rest k v

/-- Keys are pairwise distinct, the `vector_map` invariant. -/
def nodupKeys (ms : List (String × Val)) : Prop :=
  (ms.map Prod.fst).Nodup

/-! ## Merge (`Value::Merge`, ValueJson.cpp:2438-2450 and
`ObjectValue::Merge`, ValueJson.cpp:2636-2643)

```
void Value::Merge(const Value& overrides)
{
    if (overrides.IsNull()) return;
    if (!overrides.IsObject() || !IsObject()) { *this = overrides; return; }
    mValue.mObject->Merge(*overrides.mValue.mObject);
}

void ObjectValue::Merge(const ObjectValue& overrides)
{
    for (ConstNameValue nv : overrides)
        if (nv.value.IsNull())
            RemoveMember(nv.name);
        else
            UpdateMember(nv.name).Merge(nv.value);
}
```

`UpdateMember(nv.name)` inserts a null member when the key is absent, and
the member is then merged with `nv.value`; since `nv.value` is non-null,
an absent or non-object member is simply replaced by (the merge result
of) the override. -/

mutual

def Val.merge : Val → Val → Val
  | a, .null => a
  | .obj ams, .obj bms => .obj (Val.mergeMembers ams bms)
  | _, b => b

def Val.mergeMembers (t : List (String × Val)) :
    List (String × Val) → List (String × Val)
  | [] => t
  | (k, v) :: rest =>
      if v.isNull then Val.mergeMembers (removeMember t k) rest
      else
        Val.mergeMembers
          (setMemberList t k (Val.merge ((lookupMember t k).getD .null) v)) rest

end

/-! ## YAML plain-scalar classification (`YamlReader::ParseScalar`,
ValueYaml.cpp:137-223)

The number parsing uses C `strtol(s, &end, 0)` and `strtod(s, &end)`;
both are modelled on `List Char`, returning the parsed value and the
index of the first unconsumed character (`0` when no conversion was
performed, matching `endptr = nptr`).  `strtod`'s result is an exact
rational: decimal-to-binary rounding is not modelled, and overflow to
`HUGE_VAL` is not modelled (irrelevant to the classification logic, which
only inspects the end pointer). -/

def isCSpace (c : Char) : Bool :=
  c = ' ' || c = '\t' || c = '\n' || c = '\x0b' || c = '\x0c' || c = '\r'

def isDigitInBase (base : Nat) (c : Char) : Bool :=
  if base ≤ 10 then '0' ≤ c && c.toNat < '0'.toNat + base
  else
    ('0' ≤ c && c ≤ '9') ||
    ('a' ≤ c && c.toNat < 'a'.toNat + (base - 10)) ||
    ('A' ≤ c && c.toNat < 'A'.toNat + (base - 10))

def digitVal (c : Char) : Nat :=
  if '0' ≤ c && c ≤ '9' then c.toNat - '0'.toNat
  else if 'a' ≤ c && c ≤ 'z' then c.toNat - 'a'.toNat + 10
  else if 'A' ≤ c && c ≤ 'Z' then c.toNat - 'A'.toNat + 10
  else 0

def digitsVal (base : Nat) (ds : List Char) : Nat :=
  ds.foldl (fun acc c => acc * base + digitVal c) 0

def LONG_MAX : Int := 2 ^ 63 - 1
def LONG_MIN : Int := -(2 ^ 63)

def clampLong (v : Int) : Int :=
  if v > LONG_MAX then LONG_MAX else if v < LONG_MIN then LONG_MIN else v

/-- `strtol(s, &end, 0)`: leading C whitespace, optional sign, base
detection (`0x`/`0X` + hex digit → 16, leading `0` → 8, else 10), longest
digit run, clamping to `long` range on overflow.  Returns the value and
the end index (`0` if no digits were consumed). -/
def strtolModel (s : List Char) : Int × Nat :=
  let ws := s.takeWhile isCSpace
  let r1 := s.drop ws.length
  let (sgn, signLen) :=
    match r1 with
    | '-' :: _ => ((-1 : Int), 1)
    | '+' :: _ => ((1 : Int), 1)
    | _ => ((1 : Int), 0)
  let r2 := r1.drop signLen
  let (base, prefixLen) :=
    match r2 with
    | '0' :: x :: c :: _ =>
        if (x = 'x' || x = 'X') && isDigitInBase 16 c then (16, 2) else (8, 0)
    | '0' :: _ => (8, 0)
    | _ => (10, 0)
  let digits := (r2.drop prefixLen).takeWhile (isDigitInBase base)
  if digits.isEmpty then (0, 0)
  else (clampLong (sgn * digitsVal base digits),
        ws.length + signLen + prefixLen + digits.length)

/-- Case-insensitive match of `pre` against the start of `s` (ASCII). -/
def startsWithI (s pre : List Char) : Bool :=
  match s, pre with
  | _, [] => true
  | [], _ :: _ => false
  | c :: cs, p :: ps => c.toLower = p.toLower && startsWithI cs ps

/-- Decimal significand and optional exponent: `digits [. digits] [(e|E)
[sign] digits]`, requiring at least one digit overall.  Returns the value
and consumed length, or `none`. -/
def parseDecForm (r : List Char) : Option (ℚ × Nat) :=
  let ip := r.takeWhile (isDigitInBase 10)
  let r1 := r.drop ip.length
  let (fp, dotLen) :=
    match r1 with
    | '.' :: rest => (rest.takeWhile (isDigitInBase 10), 1)
    | _ => ([], 0)
  if ip.isEmpty && fp.isEmpty then none
  else
    let r2 := r1.drop (dotLen + fp.length)
    let mant : ℚ :=
      (digitsVal 10 ip * 10 ^ fp.length + digitsVal 10 fp : ℤ) / (10 ^ fp.length : ℤ)
    let mantLen := ip.length + dotLen + fp.length
    let expPart : Option (Int × Nat) :=
      match r2 with
      | e :: rest =>
          if e = 'e' || e = 'E' then
            let (esgn, esLen) :=
              match rest with
              | '-' :: _ => ((-1 : Int), 1)
              | '+' :: _ => ((1 : Int), 1)
              | _ => ((1 : Int), 0)
            let eds := (rest.drop esLen).takeWhile (isDigitInBase 10)
            if eds.isEmpty then none
            else some (esgn * digitsVal 10 eds, 1 + esLen + eds.length)
          else none
      | [] => none
    match expPart with
    | some (e, elen) => some (mant * (10 : ℚ) ^ e, mantLen + elen)
    | none => some (mant, mantLen)

/-- Hexadecimal significand and optional binary exponent:
`0x hexdigits [. hexdigits] [(p|P) [sign] digits]`. -/
def parseHexForm (r : List Char) : Option (ℚ × Nat) :=
  match r with
  | z :: x :: rest =>
      if z = '0' && (x = 'x' || x = 'X') then
        let ip := rest.takeWhile (isDigitInBase 16)
        let r1 := rest.drop ip.length
        let (fp, dotLen) :=
          match r1 with
          | '.' :: rest2 => (rest2.takeWhile (isDigitInBase 16), 1)
          | _ => ([], 0)
        if ip.isEmpty && fp.isEmpty then none
        else
          let r2 := r1.drop (dotLen + fp.length)
          let mant : ℚ :=
            (digitsVal 16 ip * 16 ^ fp.length + digitsVal 16 fp : ℤ) /
              (16 ^ fp.length : ℤ)
          let mantLen := 2 + ip.length + dotLen + fp.length
          let expPart : Option (Int × Nat) :=
            match r2 with
            | p :: rest2 =>
                if p = 'p' || p = 'P' then
                  let (esgn, esLen) :=
                    match rest2 with
                    | '-' :: _ => ((-1 : Int), 1)
                    | '+' :: _ => ((1 : Int), 1)
                    | _ => ((1 : Int), 0)
                  let eds := (rest2.drop esLen).takeWhile (isDigitInBase 10)
                  if eds.isEmpty then none
                  else some (esgn * digitsVal 10 eds, 1 + esLen + eds.length)
                else none
            | [] => none
          match expPart with
          | some (e, elen) => some (mant * (2 : ℚ) ^ e, mantLen + elen)
          | none => some (mant, mantLen)
      else none
  | _ => none

/-- `strtod(s, &end)`: leading C whitespace, optional sign, then one of
`inf`/`infinity`, `nan`, a hexadecimal form, or a decimal form.  Returns
the (exact) value and end index (`0` if no conversion). -/
def strtodModel (s : List Char) : DoubleV × Nat :=
  let ws := s.takeWhile isCSpace
  let r1 := s.drop ws.length
  let (neg, signLen) :=
    match r1 with
    | '-' :: _ => (true, 1)
    | '+' :: _ => (false, 1)
    | _ => (false, 0)
  let r2 := r1.drop signLen
  if startsWithI r2 "infinity".toList then
    (if neg then .negInf else .posInf, ws.length + signLen + 8)
  else if startsWithI r2 "inf".toList then
    (if neg then .negInf else .posInf, ws.length + signLen + 3)
  else if startsWithI r2 "nan".toList then
    (.nan, ws.length + signLen + 3)
  else
    match parseHexForm r2 with
    | some (q, len) =>
        (.finite (if neg then -q else q), ws.length + signLen + len)
    | none =>
        match parseDecForm r2 with
        | some (q, len) =>
            (.finite (if neg then -q else q), ws.length + signLen + len)
        | none => (.finite 0, 0)

/-- The C cast `(int)` applied to a `long`: truncation modulo `2^32`
reinterpreted as a signed 32-bit value. -/
def toInt32wrap (v : Int) : Int := (v + 2 ^ 31).emod (2 ^ 32) - 2 ^ 31

/-- `HL::EqualI` (String.hpp:93), ASCII case-insensitive equality. -/
def eqI (a b : String) : Bool :=
  a.toList.map Char.toLower = b.toList.map Char.toLower

/-- `'_'` stripping loop, ValueYaml.cpp:175-179. -/
def stripUnderscores (s : List Char) : List Char := s.filter (fun c => c ≠ '_')

/-- `0o` prefix rewrite, ValueYaml.cpp:182-183 (`numberStr.erase(1, 1)`). -/
def rewrite0o (s : List Char) : List Char :=
  match s with
  | '0' :: 'o' :: rest => '0' :: rest
  | _ => s

/-- The plain-scalar classification of `YamlReader::ParseScalar`
(ValueYaml.cpp:147-218): null/bool/IEEE-special keywords, then underscore
stripping, `0o` rewriting, `strtol`, `strtod`, string fallback. -/
def classifyPlainScalar (s : String) : Val :=
  if s = "" || eqI s "null" || s = "~" then .null
  else if eqI s "true" then .bool true
  else if eqI s "false" then .bool false
  else if s = "-.inf" then .double .negInf
  else if s = ".inf" then .double .posInf
  else if s = ".nan" then .double .nan
  else
    let t := rewrite0o (stripUnderscores s.toList)
    let lres := strtolModel t
    if lres.2 = t.length then .int (toInt32wrap lres.1)
    else
      let dres := strtodModel t
      if dres.2 = t.length then .double dres.1
      else .str s

/-! ## YAML mapping binding (`YamlReader::ParseMapping`,
ValueYaml.cpp:251-325)

The event stream is abstracted to the per-entry level: each loop
iteration of `ParseMapping` reads one key scalar event and materialises
the corresponding value subtree via `ParseScalar`; an entry is modelled
as the pair of the key string and that materialised `Val`.  A non-merge
entry writes its value through `UpdateMember(key)`; a `<<` entry feeds
`ObjectValue::Merge` with the value (or with each object of an array of
values, the `[*a, *b]` idiom, setting the error flag if any element is
not an object).  `none` models the `kYamlError` return. -/

def mergeEltsIntoObject (obj : List (String × Val)) :
    List Val → List (String × Val) × Bool
  | [] => (obj, true)
  | .obj ms :: rest => mergeEltsIntoObject (Val.mergeMembers obj ms) rest
  | _ :: rest => ((mergeEltsIntoObject obj rest).1, false)

def bindMappingEntry (obj : List (String × Val)) (k : String) (v : Val) :
    Option (List (String × Val)) :=
  if k = "<<" then
    match v with
    | .obj ms => some (Val.mergeMembers obj ms)
    | .arr elts =>
        let res := mergeEltsIntoObject obj elts
        if res.2 then some res.1 else none
    | _ => some obj  -- neither branch taken and `success` stays true
  else some (setMemberList obj k v)

def bindMapping (entries : List (String × Val)) (obj : List (String × Val)) :
    Option (List (String × Val)) :=
  match entries with
  | [] => some obj
  | (k, v) :: rest =>
      match bindMappingEntry obj k v with
      | some o => bindMapping rest o
      | none => none

/-! ## Heap model of object payloads

The pure `Val` above is adequate for value-level properties, but the
deep-copy claim (`Value::Value(const Value&)`, ValueJson.cpp:1632-1676)
is about aliasing, so object payloads are modelled by reference here: an
`HVal` object carries the address of an `HObj` in a heap (a list of
payloads indexed by position; allocation appends).  String and array
payloads are shared on copy in the C code (`AddRef`), which is the
identity in this model; object payloads are deep-copied by
`ObjectValue(const ObjectValue&)`, the compiler-generated memberwise copy
of `mMap` (copying each member `Value` recursively) and `mModCount`. -/

inductive HVal where
  | null
  | bool (b : Bool)
  | int (n : Int)
  | uint (n : Int)
  | int64 (n : Int)
  | uint64 (n : Int)
  | double (d : DoubleV)
  | str (s : String)
  | arr (elts : List HVal)
  | obj (addr : Nat)
  deriving Inhabited

/-- `ObjectValue`: the member map plus `mModCount` (Value.hpp:419-423). -/
structure HObj where
  members : List (String × HVal)
  modCount : Nat
  deriving Inhabited

abbrev Heap := List HObj

/-! ### `ObjectValue` member operations (ValueJson.cpp:2558-2626) -/

def hContainsKey (ms : List (String × HVal)) (k : String) : Bool :=
  ms.any (fun kv => kv.1 = k)

def hSetMemberList (ms : List (String × HVal)) (k : String) (v : HVal) :
    List (String × HVal) :=
  match ms with
  | [] => [(k, v)]
  | (k', w) :: rest =>
      if k' = k then (k', v) :: rest else (k', w) :: hSetMemberList rest k v

def hRemoveMemberList (ms : List (String × HVal)) (k : String) :
    List (String × HVal) :=
  match ms with
  | [] => []
  | (k', v) :: rest => if k' = k then rest else (k', v) :: hRemoveMemberList rest k

/-- `ObjectValue::UpdateMember(key)` (ValueJson.cpp:2558): `mModCount++`
unconditionally, then the key is looked up; a missing key inserts a null
member.  (The returned reference is where the caller writes.) -/
def HObj.updateMember (o : HObj) (k : String) : HObj :=
  { members := if hContainsKey o.members k then o.members
               else o.members ++ [(k, .null)],
    modCount := o.modCount + 1 }

/-- `ObjectValue::SetMember` (ValueJson.cpp:2608): `UpdateMember(key) = v;
mModCount++`. -/
def HObj.setMember (o : HObj) (k : String) (v : HVal) : HObj :=
  let o1 := o.updateMember k
  { members := hSetMemberList o1.members k v, modCount := o1.modCount + 1 }

/-- `ObjectValue::RemoveMember` (ValueJson.cpp:2615): erase and
`mModCount++` when found, otherwise report `false` untouched. -/
def HObj.removeMember (o : HObj) (k : String) : HObj × Bool :=
  if hContainsKey o.members k then
    ({ members := hRemoveMemberList o.members k, modCount := o.modCount + 1 }, true)
  else (o, false)

/-! ### Heap-level operations on an object-typed `Value` -/

def heapSetMember (h : Heap) (addr : Nat) (k : String) (v : HVal) : Heap :=
  match h.get? addr with
  | some o => h.set addr (o.setMember k v)
  | none => h

def heapRemoveMember (h : Heap) (addr : Nat) (k : String) : Heap :=
  match h.get? addr with
  | some o => h.set addr (o.removeMember k).1
  | none => h

mutual

/-- The deep copy performed by `Value::Value(const Value&)` for
object-typed values: scalar payloads are copied, string and array
payloads are shared (`AddRef`), and an object payload is cloned into a
fresh allocation after recursively copying its members.  `fuel` bounds
the recursion depth (the C recursion terminates because the heap is
acyclic); `none` also results from a dangling address. -/
def deepCopyVal (fuel : Nat) (h : Heap) (v : HVal) : Option (Heap × HVal) :=
  match fuel with
  | 0 => none
  | fuel + 1 =>
      match v with
      | .obj addr =>
          match h.get? addr with
          | none => none
          | some o =>
              match deepCopyMembers fuel h o.members with
              | none => none
              | some (h', ms') =>
                  some (h' ++ [{ members := ms', modCount := o.modCount }],
                        .obj h'.length)
      | v => some (h, v)

/-- Copy of the member `Value`s, in order (the memberwise `mMap` copy). -/
def deepCopyMembers (fuel : Nat) (h : Heap) (ms : List (String × HVal)) :
    Option (Heap × List (String × HVal)) :=
  match fuel, ms with
  | 0, _ => none
  | _ + 1, [] => some (h, [])
  | fuel + 1, (k, v) :: rest =>
      match deepCopyVal fuel h v with
      | none => none
      | some (h', v') =>
          match deepCopyMembers fuel h' rest with
          | none => none
          | some (h'', rest') => some (h'', (k, v') :: rest')

end

/-! ## The libyaml block-scalar scanner
(`yaml_parser_scan_block_scalar`, scanner source lines 5174-5452)

The scanner state is reduced to the decoded character stream and the
current column (`parser->mark.column`); `mark.index`/`line` and the
buffer-refill bookkeeping (`CACHE`, `unread`) do not influence the
scanned scalar.  The end of input plays the role of the NUL sentinel
(`IS_Z`).  `READ_LINE` normalises CR, LF, CR LF and NEL to `'\n'` and
keeps LS/PS, exactly as the macro at source line 3020.  The unbounded
`while` loops over lines take explicit fuel; `outOfFuel` never occurs on
a concrete run given fuel beyond the input length. -/

/-- `IS_BREAK`: CR, LF, NEL (#x85), LS (#x2028), PS (#x2029). -/
def isBreakChar (c : Char) : Bool :=
  c = '\r' || c = '\n' || c = '\u0085' || c = '\u2028' || c = '\u2029'

/-- `IS_BLANK`: space or tab. -/
def isBlankChar (c : Char) : Bool := c = ' ' || c = '\t'

structure BScan where
  input : List Char
  column : Nat
  deriving DecidableEq, Inhabited

def BScan.headIsBreak (s : BScan) : Bool :=
  match s.input with
  | [] => false
  | c :: _ => isBreakChar c

/-- `IS_BREAKZ`: a break or the NUL sentinel (end of input). -/
def BScan.headIsBreakZ (s : BScan) : Bool :=
  match s.input with
  | [] => true
  | c :: _ => isBreakChar c

def BScan.headIsBlank (s : BScan) : Bool :=
  match s.input with
  | [] => false
  | c :: _ => isBlankChar c

/-- `SKIP` (source line 2984). -/
def bSkip (s : BScan) : BScan :=
  match s.input with
  | [] => s
  | _ :: r => ⟨r, s.column + 1⟩

/-- `SKIP_LINE` (source line 2990). -/
def bSkipLine (s : BScan) : BScan :=
  match s.input with
  | '\r' :: '\n' :: r => ⟨r, 0⟩
  | c :: r => if isBreakChar c then ⟨r, 0⟩ else s
  | [] => s

/-- `READ_LINE` (source line 3020): consume one line break, yielding the
normalised characters appended to the target string. -/
def bReadLine (s : BScan) : BScan × List Char :=
  match s.input with
  | '\r' :: '\n' :: r => (⟨r, 0⟩, ['\n'])
  | c :: r =>
      if c = '\r' || c = '\n' || c = '\u0085' then (⟨r, 0⟩, ['\n'])
      else if c = '\u2028' || c = '\u2029' then (⟨r, 0⟩, [c])
      else (s, [])
  | [] => (s, [])

/-- `while (IS_BLANK) SKIP` (source line 5262). -/
def bSkipBlanks : List Char → Nat → BScan
  | [], col => ⟨[], col⟩
  | c :: r, col =>
      if isBlankChar c then bSkipBlanks r (col + 1) else ⟨c :: r, col⟩

/-- `while (!IS_BREAKZ) SKIP` (comment skipping, source line 5268). -/
def bSkipToBreakZ : List Char → Nat → BScan
  | [], col => ⟨[], col⟩
  | c :: r, col =>
      if isBreakChar c then ⟨c :: r, col⟩ else bSkipToBreakZ r (col + 1)

/-- `while (!IS_BREAKZ) READ` (line content, source line 5346). -/
def bReadContent : List Char → Nat → List Char × BScan
  | [], col => ([], ⟨[], col⟩)
  | c :: r, col =>
      if isBreakChar c then ([], ⟨c :: r, col⟩)
      else
        let res := bReadContent r (col + 1)
        (c :: res.1, res.2)

/-- `while ((!*indent || column < *indent) && IS_SPACE) SKIP`
(source line 5413). -/
def bSkipSpacesToIndent (indent : Nat) : List Char → Nat → BScan
  | [], col => ⟨[], col⟩
  | c :: r, col =>
      if (indent = 0 || col < indent) && c = ' ' then
        bSkipSpacesToIndent indent r (col + 1)
      else ⟨c :: r, col⟩

inductive BErr where
  | indentZero
  | noCommentOrBreak
  | tabIndent
  | outOfFuel
  deriving DecidableEq, Repr

/-- Header scanning: chomping and explicit-indent indicators in either
order (source lines 5199-5256, with the `0` rejection at 5221 and 5239),
then blanks, an optional `#` comment, the required line end, and the
line break (5258-5287). -/
def scanBlockHeader (s : BScan) : Except BErr (Int × Nat × BScan) :=
  let step1 : Except BErr (Int × Nat × BScan) :=
    match s.input with
    | c :: _ =>
        if c = '+' || c = '-' then
          let chomping : Int := if c = '+' then 1 else -1
          let s1 := bSkip s
          match s1.input with
          | d :: _ =>
              if d.isDigit then
                if d = '0' then .error .indentZero
                else .ok (chomping, d.toNat - '0'.toNat, bSkip s1)
              else .ok (chomping, 0, s1)
          | [] => .ok (chomping, 0, s1)
        else if c.isDigit then
          if c = '0' then .error .indentZero
          else
            let inc := c.toNat - '0'.toNat
            let s1 := bSkip s
            match s1.input with
            | d :: _ =>
                if d = '+' || d = '-' then
                  .ok (if d = '+' then 1 else -1, inc, bSkip s1)
                else .ok (0, inc, s1)
            | [] => .ok (0, inc, s1)
        else .ok (0, 0, s)
    | [] => .ok (0, 0, s)
  match step1 with
  | .error e => .error e
  | .ok (chomping, increment, s2) =>
      let s3 := bSkipBlanks s2.input s2.column
      let s4 := match s3.input with
                | '#' :: _ => bSkipToBreakZ s3.input s3.column
                | _ => s3
      if !s4.headIsBreakZ then .error .noCommentOrBreak
      else
        let s5 := if s4.headIsBreak then bSkipLine s4 else s4
        .ok (chomping, increment, s5)

/-- `yaml_parser_scan_block_scalar_breaks` (source lines 5396-5452): eat
indentation spaces and line breaks, collecting the breaks, rejecting a
tab in the indentation, and determining the indentation level when it is
still `0`. -/
def scanBreaks (fuel : Nat) (indent : Nat) (parentIndent : Int) (s : BScan)
    (breaks : List Char) (maxIndent : Nat) :
    Except BErr (Nat × List Char × BScan) :=
  match fuel with
  | 0 => .error .outOfFuel
  | fuel + 1 =>
      let s1 := bSkipSpacesToIndent indent s.input s.column
      let maxI := max maxIndent s1.column
      if (indent = 0 || s1.column < indent) &&
          (match s1.input with | '\t' :: _ => true | _ => false) then
        .error .tabIndent
      else if !s1.headIsBreak then
        let finalIndent :=
          if indent = 0 then max maxI (max (parentIndent + 1).toNat 1)
          else indent
        .ok (finalIndent, breaks, s1)
      else
        let res := bReadLine s1
        scanBreaks fuel indent parentIndent res.1 (breaks ++ res.2) maxI

/-- The content loop of `yaml_parser_scan_block_scalar` (source lines
5306-5361): while positioned at the scalar's indentation column and not
at the end, fold or append the pending leading break, flush the pending
trailing breaks, consume the line, consume its break, and re-scan
indentation/breaks. -/
def scanBody (fuel : Nat) (literal : Bool) (indent : Nat) (parentIndent : Int)
    (s : BScan) (acc lb tb : List Char) (leadingBlank : Bool) :
    Except BErr (List Char × List Char × List Char × BScan) :=
  match fuel with
  | 0 => .error .outOfFuel
  | fuel + 1 =>
      if s.column = indent && !s.input.isEmpty then
        let trailingBlank := s.headIsBlank
        let acc1 :=
          if !literal && lb.head? = some '\n' && !leadingBlank && !trailingBlank
          then acc ++ (if tb.isEmpty then [' '] else [])
          else acc ++ lb
        let acc2 := acc1 ++ tb
        let leadingBlank2 := s.headIsBlank
        let res1 := bReadContent s.input s.column
        let res2 := bReadLine res1.2
        match scanBreaks fuel indent parentIndent res2.1 [] 0 with
        | .error e => .error e
        | .ok (_, tb2, s3) =>
            scanBody fuel literal indent parentIndent s3 (acc2 ++ res1.1)
              res2.2 tb2 leadingBlank2
      else .ok (acc, lb, tb, s)

/-- Chomping application (source lines 5363-5370): strip (`-1`) keeps
neither pending break buffer, clip (`0`) keeps the final line's break,
keep (`1`) keeps both. -/
def chompJoin (chomping : Int) (acc lb tb : List Char) : List Char :=
  let a1 := if chomping ≠ -1 then acc ++ lb else acc
  if chomping = 1 then a1 ++ tb else a1

/-- `yaml_parser_scan_block_scalar` up to the point where the token is
built, exposing the chomping mode and the three string buffers. -/
def scanBlockScalarFull (fuel : Nat) (literal : Bool) (parentIndent : Int)
    (s : BScan) :
    Except BErr (Int × List Char × List Char × List Char × BScan) :=
  let s0 := bSkip s  -- eat the '|' or '>' indicator (source line 5197)
  match scanBlockHeader s0 with
  | .error e => .error e
  | .ok (chomping, increment, s1) =>
      let indent0 : Nat :=
        if increment ≠ 0 then
          (if 0 ≤ parentIndent then (parentIndent + increment).toNat else increment)
        else 0
      match scanBreaks fuel indent0 parentIndent s1 [] 0 with
      | .error e => .error e
      | .ok (indent, tb0, s2) =>
          match scanBody fuel literal indent parentIndent s2 [] [] tb0 false with
          | .error e => .error e
          | .ok (acc, lb, tb, s3) => .ok (chomping, acc, lb, tb, s3)

/-- The scanned scalar: the content with chomping applied. -/
def scanBlockScalar (fuel : Nat) (literal : Bool) (parentIndent : Int)
    (s : BScan) : Except BErr (List Char × BScan) :=
  match scanBlockScalarFull fuel literal parentIndent s with
  | .error e => .error e
  | .ok (ch, acc, lb, tb, s') => .ok (chompJoin ch acc lb tb, s')

/-! ## Directive processing (`yaml_parser_process_directives`, parser
source lines 2357-2461, and `yaml_parser_append_tag_directive`,
lines 2467-2489)

Tokens other than the two directive kinds end the collection loop.  The
version/tag payloads are carried in the token; memory management and the
returned directive lists are irrelevant to the claimed error behaviour
and are omitted. -/

inductive DirTok where
  | version (major minor : Int)
  | tag (handle pfx : String)
  | other
  deriving DecidableEq, Repr

inductive DirErr where
  | duplicateYaml    -- "found duplicate %YAML directive"
  | incompatible     -- "found incompatible YAML document"
  | duplicateTag     -- "found duplicate %TAG directive"
  deriving DecidableEq, Repr

/-- `yaml_parser_append_tag_directive`: scan the current table for the
handle; a hit is an error unless duplicates are allowed (seeding). -/
def appendTagDirective (tds : List (String × String)) (handle pfx : String)
    (allowDuplicates : Bool) : Except DirErr (List (String × String)) :=
  if tds.any (fun td => td.1 = handle) then
    if allowDuplicates then .ok tds else .error .duplicateTag
  else .ok (tds ++ [(handle, pfx)])

/-- The directive collection loop of `yaml_parser_process_directives`
(lines 2383-2422): stops at the first non-directive token; a second
`%YAML` is a duplicate error, a `%YAML` whose version is not exactly 1.1
is `found incompatible YAML document`. -/
def processDirectivesLoop :
    List DirTok → Option (Int × Int) → List (String × String) →
    Except DirErr (Option (Int × Int) × List (String × String) × List DirTok)
  | [], vd, tds => .ok (vd, tds, [])
  | .other :: rest, vd, tds => .ok (vd, tds, .other :: rest)
  | .version _ _ :: _, some _, _ => .error .duplicateYaml
  | .version major minor :: rest, none, tds =>
      if major ≠ 1 || minor ≠ 1 then .error .incompatible
      else processDirectivesLoop rest (some (major, minor)) tds
  | .tag handle pfx :: rest, vd, tds =>
      match appendTagDirective tds handle pfx false with
      | .error e => .error e
      | .ok tds' => processDirectivesLoop rest vd tds'

/-- `yaml_parser_process_directives`: run the loop from an empty version
slot, then seed the defaults `! → !` and `!! → tag:yaml.org,2002:` with
duplicates allowed (lines 2363-2367 and 2424-2429). -/
def processDirectives (tokens : List DirTok) (tds : List (String × String)) :
    Except DirErr (Option (Int × Int) × List (String × String) × List DirTok) :=
  match processDirectivesLoop tokens none tds with
  | .error e => .error e
  | .ok (vd, tds1, rest) =>
      match appendTagDirective tds1 "!" "!" true with
      | .error e => .error e
      | .ok tds2 =>
          match appendTagDirective tds2 "!!" "tag:yaml.org,2002:" true with
          | .error e => .error e
          | .ok tds3 => .ok (vd, tds3, rest)

/-! ### Lookup lemmas for the member primitives -/

theorem Val.isNull_iff (v : Val) : v.isNull = true ↔ v = .null := by
  cases v <;> simp [Val.isNull, Val.type]

theorem Val.isNull_eq_false (v : Val) (h : v ≠ .null) : v.isNull = false := by
  cases hb : v.isNull
  · rfl
  · exact absurd ((Val.isNull_iff v).mp hb) h

theorem mergeMembers_cons_null (t : List (String × Val)) (k : String)
    (rest : List (String × Val)) :
    Val.mergeMembers t ((k, .null) :: rest) =
      Val.mergeMembers (removeMember t k) rest := by
  simp [Val.mergeMembers, Val.isNull, Val.type]

theorem mergeMembers_cons_ne_null (t : List (String × Val)) (k : String) (v : Val)
    (rest : List (String × Val)) (h : v ≠ .null) :
    Val.mergeMembers t ((k, v) :: rest) =
      Val.mergeMembers
        (setMemberList t k (Val.merge ((lookupMember t k).getD .null) v)) rest := by
  simp [Val.mergeMembers, Val.isNull_eq_false v h]

theorem lookup_setMemberList_self (ms : List (String × Val)) (k : String) (v : Val) :
    lookupMember (setMemberList ms k v) k = some v := by
  induction ms with
  | nil => simp [setMemberList, lookupMember]
  | cons kv rest ih =>
      obtain ⟨k', w⟩ := kv
      by_cases h : k' = k
      · simp [setMemberList, lookupMember, h]
      · simp [setMemberList, lookupMember, h, ih]

theorem lookup_setMemberList_ne (ms : List (String × Val)) (k k' : String) (v : Val)
    (h : k' ≠ k) : lookupMember (setMemberList ms k v) k' = lookupMember ms k' := by
  have hne : ¬(k = k') := fun he => h he.symm
  induction ms with
  | nil => simp [setMemberList, lookupMember, hne]
  | cons kv rest ih =>
      obtain ⟨k0, w⟩ := kv
      by_cases h0 : k0 = k
      · subst h0
        simp [setMemberList, lookupMember, hne]
      · by_cases h1 : k0 = k'
        · simp [setMemberList, lookupMember, h0, h1, h]
        · simp [setMemberList, lookupMember, h0, h1, ih]

theorem lookup_removeMember_ne (ms : List (String × Val)) (k k' : String)
    (h : k' ≠ k) : lookupMember (removeMember ms k) k' = lookupMember ms k' := by
  have hne : ¬(k = k') := fun he => h he.symm
  induction ms with
  | nil => simp [removeMember]
  | cons kv rest ih =>
      obtain ⟨k0, w⟩ := kv
      by_cases h0 : k0 = k
      · subst h0
        simp [removeMember, lookupMember, hne]
      · by_cases h1 : k0 = k'
        · simp [removeMember, lookupMember, h0, h1, h]
        · simp [removeMember, lookupMember, h0, h1, ih]

theorem lookup_eq_none_of_not_mem_keys (ms : List (String × Val)) (k : String)
    (h : k ∉ ms.map Prod.fst) : lookupMember ms k = none := by
  induction ms with
  | nil => rfl
  | cons kv rest ih =>
      obtain ⟨k0, w⟩ := kv
      simp only [List.map_cons, List.mem_cons] at h
      push_neg at h
      have h0 : ¬(k0 = k) := fun he => h.1 he.symm
      simp [lookupMember, h0, ih h.2]

theorem lookup_removeMember_self (ms : List (String × Val)) (k : String)
    (h : nodupKeys ms) : lookupMember (removeMember ms k) k = none := by
  induction ms with
  | nil => rfl
  | cons kv rest ih =>
      obtain ⟨k0, w⟩ := kv
      simp only [nodupKeys, List.map_cons, List.nodup_cons] at h
      by_cases h0 : k0 = k
      · subst h0
        simp only [removeMember, if_pos rfl]
        exact lookup_eq_none_of_not_mem_keys rest k0 h.1
      · simp [removeMember, lookupMember, h0, ih h.2]

theorem keys_setMemberList (ms : List (String × Val)) (k : String) (v : Val) :
    (setMemberList ms k v).map Prod.fst =
      if k ∈ ms.map Prod.fst then ms.map Prod.fst else ms.map Prod.fst ++ [k] := by
  induction ms with
  | nil => simp [setMemberList]
  | cons kv rest ih =>
      obtain ⟨k0, w⟩ := kv
      by_cases h0 : k0 = k
      · subst h0
        simp [setMemberList]
      · have h0' : ¬(k = k0) := fun he => h0 he.symm
        simp only [setMemberList, if_neg h0, List.map_cons, ih, List.mem_cons]
        by_cases h3 : k ∈ rest.map Prod.fst
        · simp [h3, h0']
        · simp [h3, h0']

theorem nodupKeys_setMemberList (ms : List (String × Val)) (k : String) (v : Val)
    (h : nodupKeys ms) : nodupKeys (setMemberList ms k v) := by
  unfold nodupKeys at h ⊢
  rw [keys_setMemberList]
  by_cases h3 : k ∈ ms.map Prod.fst
  · simpa [h3] using h
  · simp only [if_neg h3]
    rw [List.nodup_append]
    refine ⟨h, List.nodup_singleton k, ?_⟩
    intro a ha hb
    simp only [List.mem_singleton] at hb
    exact h3 (hb ▸ ha)

theorem keys_removeMember_subset (ms : List (String × Val)) (k : String) :
    (removeMember ms k).map Prod.fst ⊆ ms.map Prod.fst := by
  induction ms with
  | nil => simp [removeMember]
  | cons kv rest ih =>
      obtain ⟨k0, w⟩ := kv
      by_cases h0 : k0 = k
      · simp only [removeMember, if_pos h0, List.map_cons]
        exact fun a ha => List.mem_cons_of_mem _ ha
      · simp only [removeMember, if_neg h0, List.map_cons]
        exact List.cons_subset_cons _ ih

theorem nodupKeys_removeMember (ms : List (String × Val)) (k : String)
    (h : nodupKeys ms) : nodupKeys (removeMember ms k) := by
  induction ms with
  | nil => simpa [removeMember] using h
  | cons kv rest ih =>
      obtain ⟨k0, w⟩ := kv
      simp only [nodupKeys, List.map_cons, List.nodup_cons] at h
      by_cases h0 : k0 = k
      · simp only [removeMember, if_pos h0]
        exact h.2
      · simp only [removeMember, if_neg h0, nodupKeys, List.map_cons,
          List.nodup_cons]
        exact ⟨fun hm => h.1 (keys_removeMember_subset rest k hm), ih h.2⟩

/-- The observable content of `ObjectValue::Merge`: looking up `k` in
`Merge(t, bs)` sees `bs`'s entry when present (`null` removes, any other
value is `Value::Merge`d over `t`'s entry, i.e. overrides it), and `t`'s
entry otherwise. -/
theorem lookup_mergeMembers (bs : List (String × Val)) (t : List (String × Val))
    (hb : nodupKeys bs) (ht : nodupKeys t) (k : String) :
    lookupMember (Val.mergeMembers t bs) k =
      match lookupMember bs k with
      | none => lookupMember t k
      | some v =>
          if v.isNull then none
          else some (Val.merge ((lookupMember t k).getD .null) v) := by
  induction bs generalizing t with
  | nil => simp [Val.mergeMembers, lookupMember]
  | cons kv rest ih =>
      obtain ⟨k0, v0⟩ := kv
      simp only [nodupKeys, List.map_cons, List.nodup_cons] at hb
      by_cases hv : v0 = .null
      · subst hv
        rw [mergeMembers_cons_null]
        by_cases hk : k0 = k
        · subst hk
          rw [ih (removeMember t k0) hb.2 (nodupKeys_removeMember t k0 ht)]
          rw [lookup_eq_none_of_not_mem_keys rest k0 hb.1]
          simp [lookupMember, lookup_removeMember_self t k0 ht, Val.isNull,
            Val.type]
        · rw [ih (removeMember t k0) hb.2 (nodupKeys_removeMember t k0 ht)]
          rw [lookup_removeMember_ne t k0 k (fun he => hk he.symm)]
          simp [lookupMember, hk]
      · rw [mergeMembers_cons_ne_null t k0 v0 rest hv]
        by_cases hk : k0 = k
        · subst hk
          rw [ih _ hb.2
            (nodupKeys_setMemberList t k0 (Val.merge ((lookupMember t k0).getD .null) v0) ht)]
          rw [lookup_eq_none_of_not_mem_keys rest k0 hb.1]
          simp [lookupMember, lookup_setMemberList_self,
            Val.isNull_eq_false v0 hv]
        · rw [ih _ hb.2
            (nodupKeys_setMemberList t k0 (Val.merge ((lookupMember t k0).getD .null) v0) ht)]
          rw [lookup_setMemberList_ne t k0 k _ (fun he => hk he.symm)]
          simp [lookupMember, hk]


/-! ### Binder helper lemmas -/

theorem bindMapping_plain (entries : List (String × Val)) (obj : List (String × Val))
    (h : ∀ kv ∈ entries, kv.1 ≠ "<<") :
    bindMapping entries obj =
      some (entries.foldl (fun o kv => setMemberList o kv.1 kv.2) obj) := by
  induction entries generalizing obj with
  | nil => simp [bindMapping]
  | cons kv rest ih =>
      obtain ⟨k, v⟩ := kv
      have hk : k ≠ "<<" := h (k, v) (List.mem_cons_self _ _)
      simp only [bindMapping, bindMappingEntry, if_neg hk, List.foldl_cons]
      exact ih (setMemberList obj k v) (fun kv hkv => h kv (List.mem_cons_of_mem _ hkv))

theorem lookup_foldl_set_not_mem (entries : List (String × Val))
    (obj : List (String × Val)) (k : String)
    (h : k ∉ entries.map Prod.fst) :
    lookupMember (entries.foldl (fun o kv => setMemberList o kv.1 kv.2) obj) k =
      lookupMember obj k := by
  induction entries generalizing obj with
  | nil => rfl
  | cons kv rest ih =>
      obtain ⟨k0, v0⟩ := kv
      simp only [List.map_cons, List.mem_cons] at h
      push_neg at h
      simp only [List.foldl_cons]
      rw [ih _ h.2, lookup_setMemberList_ne obj k0 k v0 h.1]

theorem lookup_foldl_set_mem (entries : List (String × Val))
    (obj : List (String × Val)) (k : String) (v : Val)
    (hn : nodupKeys entries) (hmem : (k, v) ∈ entries) :
    lookupMember (entries.foldl (fun o kv => setMemberList o kv.1 kv.2) obj) k =
      some v := by
  induction entries generalizing obj with
  | nil => cases hmem
  | cons kv rest ih =>
      obtain ⟨k0, v0⟩ := kv
      simp only [nodupKeys, List.map_cons, List.nodup_cons] at hn
      rcases List.mem_cons.mp hmem with he | hrest
      · cases he
        simp only [List.foldl_cons]
        rw [lookup_foldl_set_not_mem rest _ k hn.1, lookup_setMemberList_self]
      · simp only [List.foldl_cons]
        exact ih _ hn.2 hrest

/-! ## Theorems for the specification claims -/

/-- C2 counterexample: the claim says `Elt(i)` is bounds-checked and
clamped to the null sentinel, but on the array `[1]` with index `5` the
code reads `data[5]` out of bounds (undefined behaviour, `none` in the
model) instead of returning the null sentinel. -/
theorem elt_out_of_range_not_null_counterexample :
    Val.elt (.arr [.int 1]) 5 = none ∧
    Val.elt (.arr [.int 1]) 5 ≠ some Val.null := by
  refine ⟨rfl, ?_⟩
  intro h
  rw [show Val.elt (.arr [.int 1]) 5 = none from rfl] at h
  cases h

/-- C2 (amended): `Value::Elt(i) const` is kind-checked but not
bounds-checked: a non-array value yields the shared null sentinel, an
array with `0 ≤ i < NumElts` yields element `i`, and an out-of-range
index on an array is an unchecked `data[index]` read (undefined, `none`
in the model) rather than the null sentinel. -/
theorem elt_kind_checked_only (v : Val) (i : Int) :
    (v.type ≠ VType.array → v.elt i = some Val.null) ∧
    (∀ elts, v = Val.arr elts → 0 ≤ i → i.toNat < elts.length →
      v.elt i = elts.get? i.toNat) ∧
    (∀ elts, v = Val.arr elts → (i < 0 ∨ (elts.length : Int) ≤ i) →
      v.elt i = none) := by
  refine ⟨?_, ?_, ?_⟩
  · intro h
    cases v <;> simp_all [Val.elt, Val.type]
  · rintro elts rfl h0 _
    simp [Val.elt, h0]
  · rintro elts rfl h
    by_cases h0 : 0 ≤ i
    · have hlen : elts.length ≤ i.toNat := by
        rcases h with h | h <;> omega
      simp only [Val.elt, if_pos h0]
      exact List.get?_eq_none.mpr hlen
    · simp [Val.elt, h0]

theorem elt_kind_checked_only_witness :
    Val.elt (.int 3) 7 = some Val.null ∧
    Val.elt (.arr [.int 5]) 0 = some (Val.int 5) := by
  constructor
  · exact (elt_kind_checked_only (.int 3) 7).1 (by simp [Val.type])
  · have := (elt_kind_checked_only (.arr [.int 5]) 0).2.1 [.int 5] rfl
      (by omega) (by simp)
    simpa using this

/-- C6: evaluation at the failing input.  The spec requires a double
above the destination range to saturate at the destination maximum, but
`AsInt64` compares against `double(INT64_MAX) = 2^63`, so the double
`2^63` (which is above `INT64_MAX`) passes the range check and the
`int64_t` cast is undefined instead of saturating; likewise `AsUInt64`
at `2^64`.  Neighbouring doubles saturate/truncate as specified. -/
theorem asInt64_double_boundary_bug :
    Val.asInt64 (.double (.finite dINT64_MAX)) 0 = none ∧
    Val.asUInt64 (.double (.finite dUINT64_MAX)) 0 = none ∧
    Val.asInt64 (.double (.finite (dINT64_MAX + 2048))) 0 = some INT64_MAX ∧
    Val.asUInt64 (.double (.finite (dUINT64_MAX + 4096))) 0 = some UINT64_MAX ∧
    Val.asInt64 (.double (.finite (dINT64_MAX - 1024))) 0 = some (2 ^ 63 - 1024) := by
  refine ⟨?_, ?_, ?_, ?_, ?_⟩ <;>
    norm_num [Val.asInt64, Val.asUInt64, dINT64_MAX, dUINT64_MAX, INT64_MIN,
      INT64_MAX, UINT64_MAX, ratTrunc]

/-- C4: `Value::Merge` semantics.  A null override is a no-op; when
either side is not an object the target is replaced by the override;
two objects merge member-wise, where a null member of the override
removes the key, a member absent from the override is kept, and any
other override member is recursively `Value::Merge`d over the target's
member (which replaces it unless both are objects). -/
theorem value_merge_semantics :
    (∀ a : Val, Val.merge a .null = a) ∧
    (∀ a b : Val, b ≠ .null → ¬(a.isObject = true ∧ b.isObject = true) →
      Val.merge a b = b) ∧
    (∀ ams bms, Val.merge (.obj ams) (.obj bms) = .obj (Val.mergeMembers ams bms)) ∧
    (∀ ams bms, nodupKeys bms → nodupKeys ams → ∀ k : String,
      lookupMember (Val.mergeMembers ams bms) k =
        match lookupMember bms k with
        | none => lookupMember ams k
        | some v =>
            if v.isNull then none
            else some (Val.merge ((lookupMember ams k).getD .null) v)) := by
  refine ⟨?_, ?_, ?_, ?_⟩
  · intro a
    cases a <;> rfl
  · intro a b h1 h2
    cases a <;> cases b <;>
      simp_all [Val.merge, Val.isObject, Val.type]
  · intro ams bms
    rfl
  · intro ams bms hb ha k
    exact lookup_mergeMembers bms ams hb ha k

theorem value_merge_semantics_witness :
    Val.merge (.int 1) (.int 2) = .int 2 ∧
    lookupMember
      (Val.mergeMembers [("x", .int 1), ("z", .int 6)]
        [("x", .int 2), ("z", .null), ("w", .int 7)]) "x" = some (Val.int 2) ∧
    lookupMember
      (Val.mergeMembers [("x", .int 1), ("z", .int 6)]
        [("x", .int 2), ("z", .null), ("w", .int 7)]) "z" = none ∧
    lookupMember
      (Val.mergeMembers [("x", .int 1), ("z", .int 6)]
        [("x", .int 2), ("z", .null), ("w", .int 7)]) "w" = some (Val.int 7) := by
  have h := value_merge_semantics
  refine ⟨h.2.1 (.int 1) (.int 2) (by simp) ?_, ?_, ?_, ?_⟩
  · simp [Val.isObject, Val.type]
  · have := h.2.2.2 [("x", .int 1), ("z", .int 6)]
      [("x", .int 2), ("z", .null), ("w", .int 7)]
      (by simp [nodupKeys]) (by simp [nodupKeys]) "x"
    rw [this]
    rfl
  · have := h.2.2.2 [("x", .int 1), ("z", .int 6)]
      [("x", .int 2), ("z", .null), ("w", .int 7)]
      (by simp [nodupKeys]) (by simp [nodupKeys]) "z"
    rw [this]
    rfl
  · have := h.2.2.2 [("x", .int 1), ("z", .int 6)]
      [("x", .int 2), ("z", .null), ("w", .int 7)]
      (by simp [nodupKeys]) (by simp [nodupKeys]) "w"
    rw [this]
    rfl

/-- C10: `ObjectValue::UpdateMember` increments `mModCount`
unconditionally before the key lookup, so the counter advances even when
the key exists and the member list is unchanged; `SetMember` therefore
advances it by exactly two on every call; `RemoveMember` advances it
exactly when it removes.  The counter can thus advance without a
structural change but never fails to advance on one. -/
theorem updateMember_modCount (o : HObj) (k : String) (v : HVal) :
    ((o.updateMember k).modCount = o.modCount + 1) ∧
    (hContainsKey o.members k = true → (o.updateMember k).members = o.members) ∧
    ((o.setMember k v).modCount = o.modCount + 2) ∧
    (hContainsKey o.members k = false → o.removeMember k = (o, false)) ∧
    (hContainsKey o.members k = true →
      (o.removeMember k).1.modCount = o.modCount + 1 ∧
      (o.removeMember k).2 = true) := by
  refine ⟨rfl, ?_, rfl, ?_, ?_⟩
  · intro h
    simp [HObj.updateMember, h]
  · intro h
    simp [HObj.removeMember, h]
  · intro h
    simp [HObj.removeMember, h]

theorem updateMember_modCount_witness :
    (HObj.updateMember ⟨[("a", .int 1)], 10⟩ "a").modCount = 11 ∧
    (HObj.updateMember ⟨[("a", .int 1)], 10⟩ "a").members = [("a", .int 1)] ∧
    (HObj.setMember ⟨[("a", .int 1)], 10⟩ "a" (.int 2)).modCount = 12 := by
  have h := updateMember_modCount ⟨[("a", .int 1)], 10⟩ "a" (.int 2)
  exact ⟨h.1, h.2.1 (by rfl), h.2.2.1⟩

/-- C1 counterexample: for the mapping whose entries are
`size: 2` followed by `<<: {size: 1}`, the claim requires the resulting
member `size` to keep the mapping's own value `2`; the binder instead
feeds the merged object through `ObjectValue::Merge`, which overwrites,
yielding `1`. -/
theorem mergeKey_overwrites_counterexample :
    bindMapping [("size", Val.int 2), ("<<", Val.obj [("size", Val.int 1)])] []
      = some [("size", Val.int 1)] ∧ Val.int 1 ≠ Val.int 2 := by
  refine ⟨rfl, ?_⟩
  simp

/-- C1 (amended): the `<<` merge key feeds `ObjectValue::Merge`, which
is an overriding merge: a key present in both the mapping-so-far and the
merged object takes `Value::Merge` of the two values (the merged value
itself whenever either side is non-object), and a null merged value
removes the key.  Existing keys win over the merged entries only
by entry order: when the `<<` entry comes first — the usual layout —
every later plain entry overwrites the merged default under its key. -/
theorem mergeKey_override_semantics :
    (∀ t ms, bindMappingEntry t "<<" (.obj ms) = some (Val.mergeMembers t ms)) ∧
    (∀ t ms k v w, nodupKeys t → nodupKeys ms →
      lookupMember t k = some v → lookupMember ms k = some w →
      w.isNull = false →
      lookupMember (Val.mergeMembers t ms) k = some (Val.merge v w)) ∧
    (∀ t ms k, nodupKeys t → nodupKeys ms →
      lookupMember ms k = some .null →
      lookupMember (Val.mergeMembers t ms) k = none) ∧
    (∀ ms entries k v, nodupKeys entries →
      (∀ kv ∈ entries, kv.1 ≠ "<<") → (k, v) ∈ entries →
      ∃ result,
        bindMapping (("<<", Val.obj ms) :: entries) [] = some result ∧
        lookupMember result k = some v) := by
  refine ⟨fun t ms => rfl, ?_, ?_, ?_⟩
  · intro t ms k v w ht hm hv hw hwn
    rw [lookup_mergeMembers ms t hm ht k, hw, hv]
    simp [hwn]
  · intro t ms k ht hm hw
    rw [lookup_mergeMembers ms t hm ht k, hw]
    simp [Val.isNull, Val.type]
  · intro ms entries k v hn hplain hmem
    refine ⟨entries.foldl (fun o kv => setMemberList o kv.1 kv.2)
      (Val.mergeMembers [] ms), ?_, ?_⟩
    · simp only [bindMapping, bindMappingEntry, if_pos rfl]
      exact bindMapping_plain entries (Val.mergeMembers [] ms) hplain
    · exact lookup_foldl_set_mem entries _ k v hn hmem

theorem mergeKey_override_semantics_witness :
    lookupMember (Val.mergeMembers [("size", Val.int 2)] [("size", Val.int 1)])
      "size" = some (Val.int 1) ∧
    ∃ result,
      bindMapping [("<<", Val.obj [("colour", Val.str "red"), ("size", Val.int 1)]),
          ("size", Val.int 2)] [] = some result ∧
      lookupMember result "size" = some (Val.int 2) := by
  have h := mergeKey_override_semantics
  constructor
  · have := h.2.1 [("size", Val.int 2)] [("size", Val.int 1)] "size"
      (Val.int 2) (Val.int 1) (by simp [nodupKeys]) (by simp [nodupKeys])
      rfl rfl rfl
    rw [this]
    rfl
  · exact h.2.2.2 [("colour", Val.str "red"), ("size", Val.int 1)]
      [("size", Val.int 2)] "size" (Val.int 2)
      (by simp [nodupKeys]) (by simp) (by simp)

/-- C9: directive processing.  After any successfully processed prefix
of directive tokens, a `%YAML` token whose version is not exactly 1.1 is
rejected with `found incompatible YAML document` when it is the first
`%YAML` of the document, and any second `%YAML` token is rejected with
`found duplicate %YAML directive`. -/
theorem yaml_directive_errors :
    (∀ pre rest m n tds0 tds1,
      processDirectivesLoop pre none tds0 = .ok (none, tds1, []) →
      (m ≠ 1 ∨ n ≠ 1) →
      processDirectives (pre ++ .version m n :: rest) tds0 =
        .error .incompatible) ∧
    (∀ pre rest m n v tds0 tds1,
      processDirectivesLoop pre none tds0 = .ok (some v, tds1, []) →
      processDirectives (pre ++ .version m n :: rest) tds0 =
        .error .duplicateYaml) := by
  have happend : ∀ (pre more : List DirTok) (vd : Option (Int × Int))
      (tds : List (String × String)) (vd' : Option (Int × Int))
      (tds' : List (String × String)),
      processDirectivesLoop pre vd tds = .ok (vd', tds', []) →
      processDirectivesLoop (pre ++ more) vd tds =
        processDirectivesLoop more vd' tds' := by
    intro pre
    induction pre with
    | nil =>
        intro more vd tds vd' tds' h
        simp only [processDirectivesLoop] at h
        cases h
        rfl
    | cons tok rest ih =>
        intro more vd tds vd' tds' h
        cases tok with
        | other =>
            simp only [processDirectivesLoop] at h
            cases h
        | version m n =>
            cases vd with
            | some p =>
                simp only [processDirectivesLoop] at h
                cases h
            | none =>
                simp only [processDirectivesLoop] at h ⊢
                by_cases hb : ((m ≠ 1 : Bool) || (n ≠ 1 : Bool)) = true
                · rw [if_pos hb] at h
                  cases h
                · rw [if_neg hb] at h ⊢
                  exact ih more _ _ _ _ h
        | tag handle pfx =>
            simp only [processDirectivesLoop] at h ⊢
            cases happ : appendTagDirective tds handle pfx false with
            | error e => rw [happ] at h; cases h
            | ok tds2 =>
                rw [happ] at h
                exact ih more _ _ _ _ h
  constructor
  · intro pre rest m n tds0 tds1 h hv
    have hb : ((m ≠ 1 : Bool) || (n ≠ 1 : Bool)) = true := by
      rcases hv with hv | hv <;> simp [hv]
    unfold processDirectives
    rw [happend pre (.version m n :: rest) none tds0 none tds1 h]
    simp only [processDirectivesLoop]
    rw [if_pos hb]
  · intro pre rest m n v tds0 tds1 h
    unfold processDirectives
    rw [happend pre (.version m n :: rest) none tds0 (some v) tds1 h]
    rfl

theorem yaml_directive_errors_witness :
    processDirectives [.tag "!a!" "x:", .version 1 2] [] =
      .error .incompatible ∧
    processDirectives [.version 1 1, .version 1 1] [] =
      .error .duplicateYaml := by
  constructor
  · exact (yaml_directive_errors.1 [.tag "!a!" "x:"] [] 1 2 []
      [("!a!", "x:")] rfl (by simp))
  · exact (yaml_directive_errors.2 [.version 1 1] [] 1 1 (1, 1) [] [] rfl)

/-- C3 counterexample: for the double `2.5` and target kind int32, the
claim (the convertibility iff, "in particular for every double-typed v
and integer kind K") requires `IsConvertibleTo(int)` to equal
losslessness; the code's double row checks range only, so `2.5` reports
convertible while `AsInt` truncates it to `2 ≠ 2.5`. -/
theorem isConvertibleTo_double_counterexample :
    Val.isConvertibleTo (.double (.finite (5 / 2))) VType.int = true ∧
    Val.asInt (.double (.finite (5 / 2))) 0 = some 2 ∧
    ((2 : ℚ) ≠ 5 / 2) := by
  refine ⟨?_, ?_, by norm_num⟩
  · norm_num [Val.isConvertibleTo, INT32_MIN, INT32_MAX]
  · norm_num [Val.asInt, ratTrunc, INT32_MIN, INT32_MAX]

/-- C3 (amended): over the five integer source kinds and the four
integer target kinds, `IsConvertibleTo` implies that the matching
coercion returns the source's numeric value unchanged, and conversely a
lossless coercion implies `IsConvertibleTo` — except for a uint64 source
with target int64, where the source compares against
`(unsigned) INT64_MAX = UINT32_MAX` (a narrowing cast), so uint64 values
in `(UINT32_MAX, INT64_MAX]` convert losslessly yet report not
convertible.  (For double sources the check is range-only, cf. the
counterexample, and for string sources `IsConvertibleTo(bool)` is
unconditional.) -/
theorem isConvertibleTo_lossless_integer :
    (∀ (v : Val) (K : VType), v.wf = true → v.type.isIntegerKind = true →
      K.isIntTarget = true →
      (v.isConvertibleTo K = true → v.asIntegerKind K 0 = some v.numVal) ∧
      (¬(v.type = VType.uint64 ∧ K = VType.int64) →
        v.asIntegerKind K 0 = some v.numVal → v.isConvertibleTo K = true)) ∧
    (∀ n : Int, UINT32_MAX < n → n ≤ INT64_MAX →
      (Val.uint64 n).asIntegerKind VType.int64 0 = some (Val.uint64 n).numVal ∧
      (Val.uint64 n).isConvertibleTo VType.int64 = false) := by
  constructor
  · intro v K hwf hk ht
    constructor
    · intro hc
      cases v <;> cases K <;>
        simp_all [Val.isConvertibleTo, Val.asIntegerKind, Val.asInt, Val.asUInt,
          Val.asInt64, Val.asUInt64, Val.numVal, Val.type, VType.isIntegerKind,
          VType.isIntTarget, Val.wf, INT32_MIN, INT32_MAX, UINT32_MAX,
          INT64_MIN, INT64_MAX, UINT64_MAX] <;>
        omega
    · intro hq ha
      cases v <;> cases K <;>
        simp_all [Val.isConvertibleTo, Val.asIntegerKind, Val.asInt, Val.asUInt,
          Val.asInt64, Val.asUInt64, Val.numVal, Val.type, VType.isIntegerKind,
          VType.isIntTarget, Val.wf, INT32_MIN, INT32_MAX, UINT32_MAX,
          INT64_MIN, INT64_MAX, UINT64_MAX] <;>
        omega
  · intro n h1 h2
    constructor
    · simp only [Val.asIntegerKind, Val.asInt64, Val.numVal]
      rw [if_neg]
      simp only [INT64_MAX, UINT32_MAX] at h1 h2 ⊢
      omega
    · simp only [Val.isConvertibleTo]
      simp only [UINT32_MAX] at h1 ⊢
      simp
      omega

theorem isConvertibleTo_lossless_integer_witness :
    (0 : Int) ≤ 5 ∧
    Val.isConvertibleTo (.int 5) VType.uint = true ∧
    Val.asUInt (.int 5) 0 = some 5 ∧
    Val.asInt64 (.uint64 (2 ^ 32)) 0 = some (2 ^ 32) ∧
    Val.isConvertibleTo (.uint64 (2 ^ 32)) VType.int64 = false := by
  have h1 := (isConvertibleTo_lossless_integer.1 (.int 5) VType.uint
    (by norm_num [Val.wf, INT32_MIN, INT32_MAX])
    (by rfl) (by rfl)).1 (by norm_num [Val.isConvertibleTo])
  have h2 := isConvertibleTo_lossless_integer.2 (2 ^ 32)
    (by norm_num [UINT32_MAX]) (by norm_num [INT64_MAX])
  refine ⟨by norm_num, by norm_num [Val.isConvertibleTo], ?_, h2.1, h2.2⟩
  simpa [Val.asIntegerKind, Val.numVal] using h1

/-- C7: plain-scalar number classification.  A plain scalar that is not
classified as null, bool, or an IEEE special has its `_` separators
stripped and a leading `0o` rewritten to a `0` octal prefix; if the
base-detecting signed long parse consumes the whole string the result is
an int Value (through the `(int)` cast), otherwise a full double parse
yields a double Value, otherwise a string Value.  In particular `0o17`
yields `int(15)`. -/
theorem plainScalar_classification :
    classifyPlainScalar "0o17" = Val.int 15 ∧
    (∀ s : String, s ≠ "" → eqI s "null" = false → s ≠ "~" →
      eqI s "true" = false → eqI s "false" = false →
      s ≠ "-.inf" → s ≠ ".inf" → s ≠ ".nan" →
      ((strtolModel (rewrite0o (stripUnderscores s.toList))).2 =
          (rewrite0o (stripUnderscores s.toList)).length →
        classifyPlainScalar s =
          .int (toInt32wrap
            (strtolModel (rewrite0o (stripUnderscores s.toList))).1)) ∧
      ((strtolModel (rewrite0o (stripUnderscores s.toList))).2 ≠
          (rewrite0o (stripUnderscores s.toList)).length →
        (strtodModel (rewrite0o (stripUnderscores s.toList))).2 =
          (rewrite0o (stripUnderscores s.toList)).length →
        classifyPlainScalar s =
          .double (strtodModel (rewrite0o (stripUnderscores s.toList))).1) ∧
      ((strtolModel (rewrite0o (stripUnderscores s.toList))).2 ≠
          (rewrite0o (stripUnderscores s.toList)).length →
        (strtodModel (rewrite0o (stripUnderscores s.toList))).2 ≠
          (rewrite0o (stripUnderscores s.toList)).length →
        classifyPlainScalar s = .str s)) := by
  constructor
  · rfl
  · intro s h1 h2 h3 h4 h5 h6 h7 h8
    have e : classifyPlainScalar s =
        (if (strtolModel (rewrite0o (stripUnderscores s.toList))).2 =
            (rewrite0o (stripUnderscores s.toList)).length then
          Val.int (toInt32wrap
            (strtolModel (rewrite0o (stripUnderscores s.toList))).1)
        else if (strtodModel (rewrite0o (stripUnderscores s.toList))).2 =
            (rewrite0o (stripUnderscores s.toList)).length then
          Val.double (strtodModel (rewrite0o (stripUnderscores s.toList))).1
        else Val.str s) := by
      simp only [classifyPlainScalar]
      rw [if_neg (by simp [h1, h2, h3]), if_neg (by simp [h4]),
          if_neg (by simp [h5]), if_neg h6, if_neg h7, if_neg h8]
    refine ⟨?_, ?_, ?_⟩
    · intro hl
      rw [e, if_pos hl]
    · intro hl hd
      rw [e, if_neg hl, if_pos hd]
    · intro hl hd
      rw [e, if_neg hl, if_neg hd]

theorem plainScalar_classification_witness :
    classifyPlainScalar "xyz" = Val.str "xyz" ∧
    classifyPlainScalar "1_0" = Val.int 10 := by
  have h := plainScalar_classification.2
  constructor
  · exact ((h "xyz" (by decide) (by decide) (by decide) (by decide) (by decide)
      (by decide) (by decide) (by decide)).2.2 (by decide) (by decide))
  · exact ((h "1_0" (by decide) (by decide) (by decide) (by decide) (by decide)
      (by decide) (by decide) (by decide)).1 (by decide))

/-! ### Deep-copy heap lemmas -/

theorem deepCopy_extends (fuel : Nat) :
    (∀ h v h' v', deepCopyVal fuel h v = some (h', v') → h <+: h') ∧
    (∀ h ms h' ms', deepCopyMembers fuel h ms = some (h', ms') → h <+: h') := by
  induction fuel with
  | zero =>
      constructor
      · intro h v h' v' hc
        cases hc
      · intro h ms h' ms' hc
        cases hc
  | succ n ih =>
      constructor
      · intro h v h' v' hc
        cases v with
        | obj addr =>
            cases hget : h.get? addr with
            | none =>
                simp only [deepCopyVal, hget] at hc
                exact Option.noConfusion hc
            | some o =>
                cases hm : deepCopyMembers n h o.members with
                | none =>
                    simp only [deepCopyVal, hget, hm] at hc
                    exact Option.noConfusion hc
                | some p =>
                    obtain ⟨h1, ms'⟩ := p
                    simp only [deepCopyVal, hget, hm] at hc
                    obtain ⟨rfl, rfl⟩ := hc
                    exact (ih.2 h o.members h1 ms' hm).trans
                      (List.prefix_append h1 _)
        | null => cases hc; exact List.prefix_refl _
        | bool b => cases hc; exact List.prefix_refl _
        | int m => cases hc; exact List.prefix_refl _
        | uint m => cases hc; exact List.prefix_refl _
        | int64 m => cases hc; exact List.prefix_refl _
        | uint64 m => cases hc; exact List.prefix_refl _
        | double d => cases hc; exact List.prefix_refl _
        | str t => cases hc; exact List.prefix_refl _
        | arr l => cases hc; exact List.prefix_refl _
      · intro h ms h' ms' hc
        cases ms with
        | nil =>
            cases hc
            exact List.prefix_refl _
        | cons kv rest =>
            obtain ⟨k, v⟩ := kv
            cases hv : deepCopyVal n h v with
            | none =>
                simp only [deepCopyMembers, hv] at hc
                exact Option.noConfusion hc
            | some p =>
                obtain ⟨h1, v1⟩ := p
                cases hr : deepCopyMembers n h1 rest with
                | none =>
                    simp only [deepCopyMembers, hv, hr] at hc
                    exact Option.noConfusion hc
                | some q =>
                    obtain ⟨h2, rest'⟩ := q
                    simp only [deepCopyMembers, hv, hr] at hc
                    obtain ⟨rfl, rfl⟩ := hc
                    exact (ih.1 h v h1 v1 hv).trans (ih.2 h1 rest _ _ hr)

theorem prefix_get?_eq {α : Type} {l1 l2 : List α} (hp : l1 <+: l2) {n : Nat}
    (hn : n < l1.length) : l2.get? n = l1.get? n := by
  obtain ⟨t, rfl⟩ := hp
  exact List.get?_append hn

/-- C5: copying an object-typed Value deep-copies the payload.  The copy
lands at a fresh address, so the original's payload is intact after the
copy, and every member insertion, replacement, or removal applied to the
copy leaves the original's members and modCount unchanged, while the
copy's own modCount advances (+2 for `SetMember`, +1 for a removing
`RemoveMember`). -/
theorem object_copy_isolation (fuel : Nat) (h : Heap) (uaddr : Nat)
    (h' : Heap) (v' : HVal)
    (hu : uaddr < h.length)
    (hc : deepCopyVal fuel h (.obj uaddr) = some (h', v')) :
    ∃ vaddr, v' = .obj vaddr ∧ vaddr ≠ uaddr ∧
      h'.get? uaddr = h.get? uaddr ∧
      (∀ k w, (heapSetMember h' vaddr k w).get? uaddr = h.get? uaddr) ∧
      (∀ k, (heapRemoveMember h' vaddr k).get? uaddr = h.get? uaddr) ∧
      (∀ k w o, h'.get? vaddr = some o →
        (heapSetMember h' vaddr k w).get? vaddr = some (o.setMember k w) ∧
        (o.setMember k w).modCount = o.modCount + 2) ∧
      (∀ k o, h'.get? vaddr = some o → hContainsKey o.members k = true →
        (heapRemoveMember h' vaddr k).get? vaddr = some (o.removeMember k).1 ∧
        (o.removeMember k).1.modCount = o.modCount + 1) := by
  cases fuel with
  | zero => cases hc
  | succ n =>
      cases hget : h.get? uaddr with
      | none =>
          simp only [deepCopyVal, hget] at hc
          exact Option.noConfusion hc
      | some o =>
          cases hm : deepCopyMembers n h o.members with
          | none =>
              simp only [deepCopyVal, hget, hm] at hc
              exact Option.noConfusion hc
          | some p =>
              obtain ⟨h1, ms'⟩ := p
              simp only [deepCopyVal, hget, hm] at hc
              obtain ⟨rfl, rfl⟩ := hc
              have hpre : h <+: h1 := (deepCopy_extends n).2 h o.members h1 ms' hm
              have hlen : h.length ≤ h1.length := hpre.length_le
              have hval : uaddr < h1.length := lt_of_lt_of_le hu hlen
              have hne : h1.length ≠ uaddr := by omega
              have hgetU : (h1 ++ [⟨ms', o.modCount⟩] : Heap).get? uaddr = some o := by
                rw [List.get?_append hval, prefix_get?_eq hpre hu]
                exact hget
              have hvlen : h1.length < (h1 ++ [⟨ms', o.modCount⟩] : Heap).length := by
                simp
              have hgetV : (h1 ++ [⟨ms', o.modCount⟩] : Heap).get? h1.length =
                  some ⟨ms', o.modCount⟩ := by
                rw [List.get?_append_right (le_refl _)]
                simp
              refine ⟨h1.length, rfl, hne, hgetU, ?_, ?_, ?_, ?_⟩
              · intro k w
                simp only [heapSetMember, hgetV]
                rw [List.get?_set_ne _ _ (by omega)]
                exact hgetU
              · intro k
                simp only [heapRemoveMember, hgetV]
                rw [List.get?_set_ne _ _ (by omega)]
                exact hgetU
              · intro k w ob hob
                rw [hgetV] at hob
                cases hob
                constructor
                · simp only [heapSetMember, hgetV]
                  rw [List.get?_set_eq_of_lt]
                  · simpa using hvlen
                · rfl
              · intro k ob hob hck
                rw [hgetV] at hob
                cases hob
                constructor
                · simp only [heapRemoveMember, hgetV]
                  rw [List.get?_set_eq_of_lt]
                  · simpa using hvlen
                · simp [HObj.removeMember, hck]

theorem object_copy_isolation_witness :
    (0 : Nat) < ([⟨[("a", HVal.int 1)], 5⟩] : Heap).length ∧
    (∃ vaddr, HVal.obj 1 = HVal.obj vaddr ∧ vaddr ≠ 0 ∧
      (([⟨[("a", HVal.int 1)], 5⟩, ⟨[("a", HVal.int 1)], 5⟩] : Heap).get? 0 =
        ([⟨[("a", HVal.int 1)], 5⟩] : Heap).get? 0) ∧
      (∀ k w,
        (heapSetMember [⟨[("a", HVal.int 1)], 5⟩, ⟨[("a", HVal.int 1)], 5⟩]
          vaddr k w).get? 0 = ([⟨[("a", HVal.int 1)], 5⟩] : Heap).get? 0) ∧
      (∀ k,
        (heapRemoveMember [⟨[("a", HVal.int 1)], 5⟩, ⟨[("a", HVal.int 1)], 5⟩]
          vaddr k).get? 0 = ([⟨[("a", HVal.int 1)], 5⟩] : Heap).get? 0) ∧
      (∀ k w o,
        ([⟨[("a", HVal.int 1)], 5⟩, ⟨[("a", HVal.int 1)], 5⟩] : Heap).get? vaddr
            = some o →
        (heapSetMember [⟨[("a", HVal.int 1)], 5⟩, ⟨[("a", HVal.int 1)], 5⟩]
            vaddr k w).get? vaddr = some (o.setMember k w) ∧
          (o.setMember k w).modCount = o.modCount + 2) ∧
      (∀ k o,
        ([⟨[("a", HVal.int 1)], 5⟩, ⟨[("a", HVal.int 1)], 5⟩] : Heap).get? vaddr
            = some o →
        hContainsKey o.members k = true →
        (heapRemoveMember [⟨[("a", HVal.int 1)], 5⟩, ⟨[("a", HVal.int 1)], 5⟩]
            vaddr k).get? vaddr = some (o.removeMember k).1 ∧
          (o.removeMember k).1.modCount = o.modCount + 1)) :=
  ⟨by norm_num,
   object_copy_isolation 3 [⟨[("a", HVal.int 1)], 5⟩] 0
     [⟨[("a", HVal.int 1)], 5⟩, ⟨[("a", HVal.int 1)], 5⟩] (HVal.obj 1)
     (by norm_num) rfl⟩

/-! ### Block-scalar scanner lemmas -/

theorem bReadLine_breaks (s : BScan) :
    (bReadLine s).2 = [] ∨ ∃ c, (bReadLine s).2 = [c] ∧ isBreakChar c = true := by
  unfold bReadLine
  split
  · right; exact ⟨'\n', rfl, by decide⟩
  · split
    · right; exact ⟨'\n', rfl, by decide⟩
    · split
      · next hno heq h1 h2 =>
          rename_i c r
          right
          refine ⟨c, rfl, ?_⟩
          simp only [isBreakChar]
          rcases (Bool.or_eq_true _ _).mp h2 with h | h <;> simp [h]
      · left; rfl
  · left; rfl

theorem bReadContent_nonbreak (input : List Char) (col : Nat) :
    ∀ c ∈ (bReadContent input col).1, isBreakChar c = false := by
  induction input generalizing col with
  | nil => simp [bReadContent]
  | cons c r ih =>
      cases hb : isBreakChar c with
      | true => simp [bReadContent, hb]
      | false =>
          simp only [bReadContent, hb, Bool.false_eq_true, if_false,
            List.mem_cons]
          intro x hx
          rcases hx with rfl | hx
          · exact hb
          · exact ih (col + 1) x hx

theorem bReadContent_ne_nil (input : List Char) (col : Nat) (h1 : input ≠ [])
    (h2 : BScan.headIsBreak ⟨input, col⟩ = false) :
    (bReadContent input col).1 ≠ [] := by
  cases input with
  | nil => exact absurd rfl h1
  | cons c r =>
      simp only [BScan.headIsBreak] at h2
      simp [bReadContent, h2]

theorem getLast_append_nonbreak (l1 l2 : List Char) (h2 : l2 ≠ [])
    (hnb : ∀ c ∈ l2, isBreakChar c = false) :
    ∀ c, (l1 ++ l2).getLast? = some c → isBreakChar c = false := by
  intro c hc
  rw [List.getLast?_append_of_ne_nil l1 h2] at hc
  have hmem : c ∈ l2.getLast? := hc.symm ▸ rfl
  obtain ⟨hne, heq⟩ := List.mem_getLast?_eq_getLast hmem
  exact hnb c (heq ▸ List.getLast_mem hne)

/-- On a successful return, `yaml_parser_scan_block_scalar_breaks` is
positioned at a non-break character (or the end), and it has only added
break characters to the collected `breaks` buffer. -/
theorem scanBreaks_ok_props (fuel : Nat) :
    ∀ indent pi s breaks mi ind' tb s',
      scanBreaks fuel indent pi s breaks mi = .ok (ind', tb, s') →
      s'.headIsBreak = false ∧
      ((∀ c ∈ breaks, isBreakChar c = true) → ∀ c ∈ tb, isBreakChar c = true) := by
  induction fuel with
  | zero =>
      intro indent pi s breaks mi ind' tb s' hc
      cases hc
  | succ n ih =>
      intro indent pi s breaks mi ind' tb s' hc
      simp only [scanBreaks] at hc
      split at hc
      · cases hc
      · split at hc
        · -- exit branch: non-break head
          next hnb =>
            cases hc
            exact ⟨by simpa using hnb, fun h => h⟩
        · -- loop: consume the break, recurse
          next hnb =>
            have hprops := ih indent pi
              (bReadLine (bSkipSpacesToIndent indent s.input s.column)).1
              (breaks ++ (bReadLine (bSkipSpacesToIndent indent s.input s.column)).2)
              (max mi (bSkipSpacesToIndent indent s.input s.column).column) ind' tb s' hc
            refine ⟨hprops.1, fun hbr => hprops.2 ?_⟩
            intro c hcm
            rcases List.mem_append.mp hcm with hcm | hcm
            · exact hbr c hcm
            · rcases bReadLine_breaks (bSkipSpacesToIndent indent s.input s.column) with he | ⟨c0, he, hb0⟩
              · rw [he] at hcm; cases hcm
              · rw [he] at hcm
                rcases List.mem_singleton.mp hcm with rfl
                exact hb0

/-- Invariants of the content loop: the pending leading break is empty
or one break character, the pending trailing breaks are break
characters, and the accumulated content does not end in a break. -/
theorem scanBody_ok_props (fuel : Nat) :
    ∀ lit indent pi s acc lb tb lB acc' lb' tb' s',
      scanBody fuel lit indent pi s acc lb tb lB = .ok (acc', lb', tb', s') →
      s.headIsBreak = false →
      (lb = [] ∨ ∃ c, lb = [c] ∧ isBreakChar c = true) →
      (∀ c ∈ tb, isBreakChar c = true) →
      (∀ c, acc.getLast? = some c → isBreakChar c = false) →
      (lb' = [] ∨ ∃ c, lb' = [c] ∧ isBreakChar c = true) ∧
      (∀ c ∈ tb', isBreakChar c = true) ∧
      (∀ c, acc'.getLast? = some c → isBreakChar c = false) := by
  induction fuel with
  | zero =>
      intro lit indent pi s acc lb tb lB acc' lb' tb' s' hc
      cases hc
  | succ n ih =>
      intro lit indent pi s acc lb tb lB acc' lb' tb' s' hc hhead hlb htb hacc
      simp only [scanBody] at hc
      split at hc
      · -- loop body
        next hcond =>
          cases hsb : scanBreaks n indent pi
              (bReadLine (bReadContent s.input s.column).2).1 [] 0 with
          | error e =>
              simp only [hsb] at hc
              exact Except.noConfusion hc
          | ok t =>
              obtain ⟨i2, tb2, s3⟩ := t
              simp only [hsb] at hc
              have hbprops := scanBreaks_ok_props n indent pi
                (bReadLine (bReadContent s.input s.column).2).1 [] 0 i2 tb2 s3 hsb
              have hinput : s.input ≠ [] := by
                rcases Bool.and_eq_true _ _ |>.mp hcond with ⟨_, hne⟩
                simpa using hne
              have hcontent := bReadContent_ne_nil s.input s.column hinput hhead
              refine ih lit indent pi s3 _ _ _ _ _ _ _ _ hc hbprops.1 ?_
                (hbprops.2 (by intro c hcm; cases hcm)) ?_
              · exact bReadLine_breaks (bReadContent s.input s.column).2
              · exact getLast_append_nonbreak _ _ hcontent
                  (bReadContent_nonbreak s.input s.column)
      · -- loop exit
        cases hc
        exact ⟨hlb, htb, hacc⟩

/-- C8: block scalars.  An explicit indentation digit `0` in the header
(in either indicator order) is rejected with a scanner error.  For every
successful scan, the scanned scalar is the accumulated content `acc`
with chomping applied to the two pending break buffers: the final line's
break `lb` (empty or a single break) and the trailing breaks `tb` (break
characters only), where `acc` itself never ends in a break.  Strip
(`-`) keeps neither, so the result has no trailing line breaks; clip
(default) keeps `lb` only, so at most one trailing newline; keep (`+`)
appends both, preserving every trailing newline. -/
theorem blockScalar_indent_and_chomping :
    (∀ (fuel : Nat) (lit : Bool) (pi : Int) (ind : Char) (rest : List Char)
        (col : Nat),
      scanBlockScalar fuel lit pi ⟨ind :: '0' :: rest, col⟩ =
        .error .indentZero) ∧
    (∀ (fuel : Nat) (lit : Bool) (pi : Int) (ind c : Char) (rest : List Char)
        (col : Nat), c = '+' ∨ c = '-' →
      scanBlockScalar fuel lit pi ⟨ind :: c :: '0' :: rest, col⟩ =
        .error .indentZero) ∧
    (∀ (fuel : Nat) (lit : Bool) (pi : Int) (s : BScan) (ch : Int)
        (acc lb tb : List Char) (s' : BScan),
      scanBlockScalarFull fuel lit pi s = .ok (ch, acc, lb, tb, s') →
      scanBlockScalar fuel lit pi s = .ok (chompJoin ch acc lb tb, s') ∧
      (lb = [] ∨ ∃ c, lb = [c] ∧ isBreakChar c = true) ∧
      (∀ c ∈ tb, isBreakChar c = true) ∧
      (∀ c, acc.getLast? = some c → isBreakChar c = false) ∧
      (ch = -1 → chompJoin ch acc lb tb = acc) ∧
      (ch = 0 → chompJoin ch acc lb tb = acc ++ lb) ∧
      (ch = 1 → chompJoin ch acc lb tb = acc ++ lb ++ tb)) := by
  refine ⟨fun fuel lit pi ind rest col => rfl, ?_, ?_⟩
  · intro fuel lit pi ind c rest col hcm
    rcases hcm with rfl | rfl <;> rfl
  · intro fuel lit pi s ch acc lb tb s' hfull
    have hok : scanBlockScalar fuel lit pi s = .ok (chompJoin ch acc lb tb, s') := by
      simp only [scanBlockScalar, hfull]
    have hinv : (lb = [] ∨ ∃ c, lb = [c] ∧ isBreakChar c = true) ∧
        (∀ c ∈ tb, isBreakChar c = true) ∧
        (∀ c, acc.getLast? = some c → isBreakChar c = false) := by
      cases hh : scanBlockHeader (bSkip s) with
      | error e =>
          simp only [scanBlockScalarFull, hh] at hfull
          exact Except.noConfusion hfull
      | ok hdr =>
          obtain ⟨ch0, inc, s1⟩ := hdr
          cases hsb : scanBreaks fuel
              (if inc ≠ 0 then
                (if 0 ≤ pi then (pi + inc).toNat else inc) else 0)
              pi s1 [] 0 with
          | error e =>
              simp only [scanBlockScalarFull, hh, hsb] at hfull
              exact Except.noConfusion hfull
          | ok brk =>
              obtain ⟨indent, tb0, s2⟩ := brk
              cases hbody : scanBody fuel lit indent pi s2 [] [] tb0 false with
              | error e =>
                  simp only [scanBlockScalarFull, hh, hsb, hbody] at hfull
                  exact Except.noConfusion hfull
              | ok body =>
                  obtain ⟨acc0, lb0, tb1, s3⟩ := body
                  simp only [scanBlockScalarFull, hh, hsb, hbody] at hfull
                  obtain ⟨rfl, rfl, rfl, rfl, rfl⟩ := hfull
                  have hbprops := scanBreaks_ok_props fuel _ pi s1 [] 0
                    _ _ _ hsb
                  exact scanBody_ok_props fuel lit _ pi _
                    [] [] _ false _ _ _ _ hbody hbprops.1
                    (Or.inl rfl)
                    (hbprops.2 (by intro c hcm; cases hcm))
                    (by intro c hcl; cases hcl)
    refine ⟨hok, hinv.1, hinv.2.1, hinv.2.2, ?_, ?_, ?_⟩ <;> rintro rfl <;>
      simp [chompJoin]

theorem blockScalar_indent_and_chomping_witness :
    scanBlockScalar 40 false 0 ⟨">-\n  one\n  two\n\n  three\n".toList, 7⟩ =
      .ok (chompJoin (-1) "one two\nthree".toList ['\n'] [], ⟨[], 0⟩) ∧
    (['\n'] = ([] : List Char) ∨ ∃ c, ['\n'] = [c] ∧ isBreakChar c = true) ∧
    (∀ c ∈ ([] : List Char), isBreakChar c = true) ∧
    (∀ c, "one two\nthree".toList.getLast? = some c → isBreakChar c = false) ∧
    ((-1 : Int) = -1 →
      chompJoin (-1) "one two\nthree".toList ['\n'] [] = "one two\nthree".toList) ∧
    ((-1 : Int) = 0 →
      chompJoin (-1) "one two\nthree".toList ['\n'] [] =
        "one two\nthree".toList ++ ['\n']) ∧
    ((-1 : Int) = 1 →
      chompJoin (-1) "one two\nthree".toList ['\n'] [] =
        "one two\nthree".toList ++ ['\n'] ++ []) :=
  blockScalar_indent_and_chomping.2.2 40 false 0
    ⟨">-\n  one\n  two\n\n  three\n".toList, 7⟩ (-1) "one two\nthree".toList
    ['\n'] [] ⟨[], 0⟩ rfl

end ConfigSpec
